import Mathlib

/-!
Shallow embedding of the reactive-cell library in `src/src/lib.rs` (crate
`react`): a reactor holding input cells and compute cells in a map keyed by
a `u64` handle, with eager recursive evaluation of compute cells.

Modelling conventions:
* `u64` handles become `Nat` (the counter only ever increments, no overflow
  behaviour is relied upon by any claim).
* `HashMap<u64, Cell<T>>` becomes a function `Nat → Option (Cell T)`;
  `insertCell` is `HashMap::insert` (overwriting).
* The element type parameter `T : Copy + PartialEq` becomes an arbitrary
  `T : Type` (no operation in the source ever calls `==` on `T`).
* `Cell::get_val` recurses through the dependency graph with no structural
  bound, so the embedding takes a fuel argument; the result `none` models a
  run that aborts (a failed `unwrap` on a missing dependency) or does not
  terminate (a budget too small for the recursion depth).  For reactors
  reachable through the public operations we prove that any fuel larger
  than the cell's key suffices and the result is fuel-independent.
* `unimplemented!` bodies (`add_callback`, `remove_callback`) abort
  unconditionally; they are modelled as constantly-`none` functions into
  `Option`, where `none` is the abort.
-/

namespace React

/-- `InputCellID` of the source: a distinct wrapper around the numeric
handle, not interchangeable with `ComputeCellID`. -/
structure InputCellID where
  val : Nat
deriving DecidableEq

/-- `ComputeCellID` of the source. -/
structure ComputeCellID where
  val : Nat
deriving DecidableEq

/-- `CallbackID` of the source: `pub struct CallbackID();` — a unit struct
with no fields at all. -/
structure CallbackID where
deriving DecidableEq

/-- `CellID`: either kind of identifier. -/
inductive CellID
  | Input : InputCellID → CellID
  | Compute : ComputeCellID → CellID
deriving DecidableEq

/-- `CellID::get_id`: the raw numeric handle of either kind. -/
def CellID.get_id : CellID → Nat
  | CellID.Input cellid => cellid.val
  | CellID.Compute cellid => cellid.val

/-- `RemoveCallbackError` of the source. -/
inductive RemoveCallbackError
  | NonexistentCell
  | NonexistentCallback
deriving DecidableEq

/-- A stored cell: `ComputeCell { func, _deps }` or `InputCell { val }`.
The compute variant holds exactly the fields of the source struct: the
boxed function and the dependency list.  It has no cached-value field. -/
inductive Cell (T : Type)
  | Compute (func : List T → T) (_deps : List CellID)
  | Input (val : T)

/-- `Reactor { id, cells }`: the monotone id counter and the cell map. -/
structure Reactor (T : Type) where
  id : Nat
  cells : Nat → Option (Cell T)

/-- `HashMap::insert`: overwrite the binding at key `k`. -/
def insertCell {T : Type} (m : Nat → Option (Cell T)) (k : Nat) (c : Cell T) :
    Nat → Option (Cell T) :=
  fun j => if j = k then some c else m j

/-- `Reactor::new()`. -/
def Reactor.new (T : Type) : Reactor T :=
  { id := 0, cells := fun _ => none }

/-- The dependency loop inside `Cell::get_val`, parameterised by the
evaluator applied to each dependency's cell: look each dependency up in
the map (`none` models the aborting `unwrap` of the source when the key is
absent), evaluate it, and collect the values in order. -/
def evalDeps {T : Type} (getv : Cell T → Option T) (r : Reactor T) :
    List CellID → Option (List T)
  | [] => some []
  | d :: ds =>
    match r.cells d.get_id with
    | none => none
    | some c =>
      match getv c with
      | none => none
      | some v =>
        match evalDeps getv r ds with
        | none => none
        | some vs => some (v :: vs)

/-- `Cell::get_val`: an input cell returns its stored value; a compute
cell evaluates every dependency in declared order and applies its
function.  `fuel` bounds the recursion depth; `none` models an aborted or
non-terminating run. -/
def get_val {T : Type} : Nat → Reactor T → Cell T → Option T
  | 0, _, _ => none
  | _ + 1, _, Cell.Input v => some v
  | fuel + 1, r, Cell.Compute func deps =>
    match evalDeps (get_val fuel r) r deps with
    | none => none
    | some computed => some (func computed)

/-- `Reactor::create_input`: allocate the next handle, bump the counter,
store the input cell. -/
def create_input {T : Type} (r : Reactor T) (initial : T) :
    InputCellID × Reactor T :=
  (⟨r.id⟩, { id := r.id + 1, cells := insertCell r.cells r.id (Cell.Input initial) })

/-- The validation loop of `Reactor::create_compute`: walk the dependency
list in order; on the first dependency whose handle is absent from the map
return it (`some (some d)`, the source's early `return Err(*dep)`);
otherwise evaluate the dependency with `get_val` — the source pushes the
value into `cellcontents`, which is never read again, so only the possible
abort of that evaluation is kept (`none`).  `some none` means the whole
list was validated. -/
def checkDeps {T : Type} (fuel : Nat) (r : Reactor T) :
    List CellID → Option (Option CellID)
  | [] => some none
  | d :: ds =>
    match r.cells d.get_id with
    | none => some (some d)
    | some c =>
      match get_val fuel r c with
      | none => none
      | some _ => checkDeps fuel r ds

/-- `Reactor::create_compute`: validate (and evaluate) every dependency;
on a missing one return `Err` with that id and leave the reactor alone;
otherwise allocate the next handle, bump the counter and store a
`Cell.Compute` holding only the function and the dependency list.  The
outer `none` models an abort inside the validation loop. -/
def create_compute {T : Type} (fuel : Nat) (r : Reactor T)
    (dependencies : List CellID) (compute_func : List T → T) :
    Option (Except CellID ComputeCellID × Reactor T) :=
  match checkDeps fuel r dependencies with
  | none => none
  | some (some d) => some (Except.error d, r)
  | some none =>
    some (Except.ok ⟨r.id⟩,
      { id := r.id + 1,
        cells := insertCell r.cells r.id (Cell.Compute compute_func dependencies) })

/-- `Reactor::value`: look the handle up (each `CellID` variant is handled
by its own, identical, branch in the source) and evaluate the cell; `none`
when the handle is absent. -/
def value {T : Type} (fuel : Nat) (r : Reactor T) (id : CellID) : Option T :=
  match id with
  | CellID.Input cell_id =>
    match r.cells cell_id.val with
    | none => none
    | some cell => get_val fuel r cell
  | CellID.Compute cell_id =>
    match r.cells cell_id.val with
    | none => none
    | some cell => get_val fuel r cell

/-- `Reactor::set_value`: `false` (no mutation) when the handle is absent
or names a compute cell; otherwise overwrite with a fresh input cell and
return `true`. -/
def set_value {T : Type} (r : Reactor T) (_id : InputCellID) (new_value : T) :
    Bool × Reactor T :=
  match r.cells _id.val with
  | none => (false, r)
  | some (Cell.Compute _ _) => (false, r)
  | some (Cell.Input _) =>
    (true, { r with cells := insertCell r.cells _id.val (Cell.Input new_value) })

/-- `Reactor::add_callback`: the source body is the `unimplemented`
macro invocation, which aborts for every argument; modelled as the
constant `none` (the would-be success type is kept for fidelity to the
source signature `Option<CallbackID>` with `&mut self`). -/
def add_callback {T : Type} (_r : Reactor T) (_id : ComputeCellID)
    (_callback : T → Unit) : Option (Option CallbackID × Reactor T) :=
  none

/-- `Reactor::remove_callback`: the source body is the `unimplemented`
macro invocation, which aborts for every argument; modelled as the
constant `none`. -/
def remove_callback {T : Type} (_r : Reactor T) (_cell : ComputeCellID)
    (_callback : CallbackID) : Option (Except RemoveCallbackError Unit × Reactor T) :=
  none

/-- Reactor states reachable through the public mutating operations
(`new`, `create_input`, `create_compute`, `set_value`; the two callback
operations abort and produce no state). -/
inductive Reachable {T : Type} : Reactor T → Prop
  | new : Reachable (Reactor.new T)
  | createInput (r : Reactor T) (v : T) :
      Reachable r → Reachable (create_input r v).2
  | createCompute (r : Reactor T) (deps : List CellID) (f : List T → T)
      (fuel : Nat) (res : Except CellID ComputeCellID × Reactor T) :
      Reachable r → create_compute fuel r deps f = some res → Reachable res.2
  | setValue (r : Reactor T) (id : InputCellID) (v : T) :
      Reachable r → Reachable (set_value r id v).2

/-- The structural invariant of reachable reactors: keys below the counter
are exactly the occupied ones, and every dependency of a compute cell was
created strictly earlier (smaller key). -/
structure WF {T : Type} (r : Reactor T) : Prop where
  dom : ∀ k, k < r.id ↔ (r.cells k).isSome
  deps_lt : ∀ k func deps, r.cells k = some (Cell.Compute func deps) →
      ∀ d ∈ deps, d.get_id < k

/-- Concrete scenario (spec P2): the function of compute cell B,
`|v| v[0] + 1`. -/
def fB : List Int → Int := fun args => args.headD 0 + 1

/-- Concrete scenario: B's dependency list, `[CellID::Input(A)]` with A
the first allocated handle. -/
def depsB : List CellID := [CellID.Input ⟨0⟩]

/-- Concrete scenario: the reactor after `create_input(1)` (input cell A,
handle 0, value 1). -/
def rA : Reactor Int := (create_input (Reactor.new Int) 1).2

/-- Concrete scenario: the reactor after additionally
`create_compute(&[Input(A)], |v| v[0] + 1)` (compute cell B, handle 1). -/
def rAB : Reactor Int :=
  { id := 2, cells := insertCell rA.cells 1 (Cell.Compute fB depsB) }

theorem insertCell_same {T : Type} (m : Nat → Option (Cell T)) (k : Nat)
    (c : Cell T) : insertCell m k c k = some c := by
  simp [insertCell]

theorem insertCell_other {T : Type} (m : Nat → Option (Cell T)) (k j : Nat)
    (c : Cell T) (h : j ≠ k) : insertCell m k c j = m j := by
  simp [insertCell, h]

/-- A fully validated dependency list has every handle occupied. -/
theorem checkDeps_ok_mem {T : Type} (fuel : Nat) (r : Reactor T) :
    ∀ deps : List CellID, checkDeps fuel r deps = some none →
      ∀ d ∈ deps, (r.cells d.get_id).isSome := by
  intro deps
  induction deps with
  | nil => intro _ d hd; cases hd
  | cons d0 ds ih =>
    intro h d hd
    rcases hc : r.cells d0.get_id with _ | c
    · simp [checkDeps, hc] at h
    · simp only [checkDeps, hc] at h
      rcases hg : get_val fuel r c with _ | v
      · simp [hg] at h
      · simp only [hg] at h
        rcases List.mem_cons.mp hd with rfl | hd'
        · simp [hc]
        · exact ih h d hd'

theorem wf_new {T : Type} : WF (Reactor.new T) := by
  constructor
  · intro k; simp [Reactor.new]
  · intro k func deps h; simp [Reactor.new] at h

theorem wf_insert_fresh {T : Type} (r : Reactor T) (hwf : WF r) (c : Cell T)
    (hc : ∀ func deps, c = Cell.Compute func deps → ∀ d ∈ deps, d.get_id < r.id) :
    WF { id := r.id + 1, cells := insertCell r.cells r.id c } := by
  constructor
  · intro k
    show k < r.id + 1 ↔ (insertCell r.cells r.id c k).isSome
    by_cases hk : k = r.id
    · subst hk; simp [insertCell_same]
    · rw [insertCell_other _ _ _ _ hk, ← hwf.dom k]
      constructor
      · intro h2; omega
      · intro h2; omega
  · intro k func deps h d hd
    have h' : insertCell r.cells r.id c k = some (Cell.Compute func deps) := h
    by_cases hk : k = r.id
    · subst hk
      rw [insertCell_same] at h'
      exact hc func deps (Option.some.inj h') d hd
    · rw [insertCell_other _ _ _ _ hk] at h'
      exact hwf.deps_lt k func deps h' d hd

theorem wf_create_input {T : Type} (r : Reactor T) (v : T) (hwf : WF r) :
    WF (create_input r v).2 := by
  exact wf_insert_fresh r hwf (Cell.Input v) (by intro func deps h; cases h)

theorem wf_create_compute {T : Type} (fuel : Nat) (r : Reactor T)
    (deps : List CellID) (f : List T → T)
    (res : Except CellID ComputeCellID × Reactor T) (hwf : WF r)
    (h : create_compute fuel r deps f = some res) : WF res.2 := by
  rcases hck : checkDeps fuel r deps with _ | od
  · simp [create_compute, hck] at h
  · rcases od with _ | d
    · simp only [create_compute, hck, Option.some.injEq] at h
      rw [← h]
      exact wf_insert_fresh r hwf (Cell.Compute f deps) (by
        intro func deps' heq d hd
        cases heq
        have := checkDeps_ok_mem fuel r deps hck d hd
        exact (hwf.dom _).mpr this)
    · simp only [create_compute, hck, Option.some.injEq] at h
      rw [← h]
      exact hwf

theorem wf_set_value {T : Type} (r : Reactor T) (id : InputCellID) (v : T)
    (hwf : WF r) : WF (set_value r id v).2 := by
  rcases hc : r.cells id.val with _ | c
  · simp only [set_value, hc]; exact hwf
  · cases c with
    | Compute func deps => simp only [set_value, hc]; exact hwf
    | Input v0 =>
      simp only [set_value, hc]
      constructor
      · intro k
        show k < r.id ↔ (insertCell r.cells id.val (Cell.Input v) k).isSome
        by_cases hk : k = id.val
        · rw [hk, insertCell_same]
          have hs : (r.cells id.val).isSome := by rw [hc]; rfl
          have h2 := (hwf.dom id.val).mpr hs
          simp [h2]
        · rw [insertCell_other _ _ _ _ hk]
          exact hwf.dom k
      · intro k func deps h d hd
        have h' : insertCell r.cells id.val (Cell.Input v) k =
            some (Cell.Compute func deps) := h
        by_cases hk : k = id.val
        · subst hk; rw [insertCell_same] at h'; cases h'
        · rw [insertCell_other _ _ _ _ hk] at h'
          exact hwf.deps_lt k func deps h' d hd

/-- Every reachable reactor satisfies the structural invariant. -/
theorem Reachable.wf {T : Type} (r : Reactor T) (h : Reachable r) : WF r := by
  induction h with
  | new => exact wf_new
  | createInput r v _ ih => exact wf_create_input r v ih
  | createCompute r deps f fuel res _ heq ih =>
    exact wf_create_compute fuel r deps f res ih heq
  | setValue r id v _ ih => exact wf_set_value r id v ih

/-- The dependency loop succeeds whenever every dependency is present and
evaluates successfully. -/
theorem evalDeps_isSome {T : Type} (getv : Cell T → Option T) (r : Reactor T) :
    ∀ deps : List CellID,
      (∀ d ∈ deps, ∃ c, r.cells d.get_id = some c ∧ (getv c).isSome) →
      (evalDeps getv r deps).isSome := by
  intro deps
  induction deps with
  | nil => intro _; simp [evalDeps]
  | cons d0 ds ih =>
    intro h
    obtain ⟨c, hc, hg⟩ := h d0 (by simp)
    obtain ⟨v, hv⟩ := Option.isSome_iff_exists.mp hg
    have hds := ih (fun d hd => h d (by simp [hd]))
    obtain ⟨vs, hvs⟩ := Option.isSome_iff_exists.mp hds
    simp [evalDeps, hc, hv, hvs]

/-- In a well-formed reactor, evaluating a stored cell succeeds for any
fuel larger than its key: the aborting branch of `get_val` is never
taken. -/
theorem get_val_total {T : Type} (r : Reactor T) (hwf : WF r) :
    ∀ fuel k c, r.cells k = some c → k < fuel → (get_val fuel r c).isSome := by
  intro fuel
  induction fuel with
  | zero => intro k c _ hk; omega
  | succ fuel ih =>
    intro k c hc hk
    cases c with
    | Input v => simp [get_val]
    | Compute func deps =>
      have hdeps : ∀ d ∈ deps, ∃ c', r.cells d.get_id = some c' ∧
          (get_val fuel r c').isSome := by
        intro d hd
        have hlt : d.get_id < k := hwf.deps_lt k func deps hc d hd
        have hkid : k < r.id := (hwf.dom k).mpr (by rw [hc]; rfl)
        have hsome : (r.cells d.get_id).isSome := (hwf.dom _).mp (by omega)
        obtain ⟨c', hc'⟩ := Option.isSome_iff_exists.mp hsome
        exact ⟨c', hc', ih d.get_id c' hc' (by omega)⟩
      have hs := evalDeps_isSome (get_val fuel r) r deps hdeps
      obtain ⟨vs, hvs⟩ := Option.isSome_iff_exists.mp hs
      simp [get_val, hvs]

/-- The dependency loop only looks at the evaluator's value on cells
present in the map. -/
theorem evalDeps_congr {T : Type} (getv₁ getv₂ : Cell T → Option T)
    (r : Reactor T) :
    ∀ deps : List CellID,
      (∀ d ∈ deps, ∀ c, r.cells d.get_id = some c → getv₁ c = getv₂ c) →
      evalDeps getv₁ r deps = evalDeps getv₂ r deps := by
  intro deps
  induction deps with
  | nil => intro _; rfl
  | cons d0 ds ih =>
    intro h
    rcases hc : r.cells d0.get_id with _ | c
    · simp [evalDeps, hc]
    · have h0 := h d0 (by simp) c hc
      have hds := ih (fun d hd c' hc' => h d (by simp [hd]) c' hc')
      simp [evalDeps, hc, h0, hds]

/-- In a well-formed reactor the result of evaluating a stored cell does
not depend on the fuel, as long as the fuel exceeds the cell's key. -/
theorem get_val_stable {T : Type} (r : Reactor T) (hwf : WF r) :
    ∀ k c, r.cells k = some c → ∀ fuel₁ fuel₂, k < fuel₁ → k < fuel₂ →
      get_val fuel₁ r c = get_val fuel₂ r c := by
  intro k
  induction k using Nat.strong_induction_on with
  | _ k ih =>
    intro c hc fuel₁ fuel₂ h₁ h₂
    rcases fuel₁ with _ | f₁
    · omega
    rcases fuel₂ with _ | f₂
    · omega
    cases c with
    | Input v => rfl
    | Compute func deps =>
      have hcongr : evalDeps (get_val f₁ r) r deps =
          evalDeps (get_val f₂ r) r deps := by
        apply evalDeps_congr
        intro d hd c' hc'
        have hlt : d.get_id < k := hwf.deps_lt k func deps hc d hd
        exact ih d.get_id hlt c' hc' f₁ f₂ (by omega) (by omega)
      simp [get_val, hcongr]

/-- `Reactor::value` is the lookup of the raw handle followed by
`Cell::get_val` (both variants of the source's match do the same). -/
theorem value_eq_lookup {T : Type} (fuel : Nat) (r : Reactor T) (id : CellID) :
    value fuel r id = Option.bind (r.cells id.get_id) (get_val fuel r) := by
  cases id with
  | Input cid =>
    rcases h : r.cells cid.val with _ | c <;> simp [value, CellID.get_id, h]
  | Compute cid =>
    rcases h : r.cells cid.val with _ | c <;> simp [value, CellID.get_id, h]

theorem value_input_eq {T : Type} (fuel : Nat) (r : Reactor T) (k : Nat)
    (v : T) (hc : r.cells k = some (Cell.Input v)) (hf : 0 < fuel) :
    value fuel r (CellID.Input ⟨k⟩) = some v := by
  rcases fuel with _ | f
  · omega
  simp [value, hc, get_val]

theorem forall₂_imp_mem {α β : Type} {R S : α → β → Prop} :
    ∀ {l₁ : List α} {l₂ : List β}, List.Forall₂ R l₁ l₂ →
      (∀ a ∈ l₁, ∀ b, R a b → S a b) → List.Forall₂ S l₁ l₂ := by
  intro l₁ l₂ h
  induction h with
  | nil => intro _; exact List.Forall₂.nil
  | cons hab htl ih =>
    intro hmem
    exact List.Forall₂.cons (hmem _ (by simp) _ hab)
      (ih (fun a ha b => hmem a (by simp [ha]) b))

/-- A successful dependency loop pairs each dependency with the value its
cell evaluated to. -/
theorem evalDeps_forall₂ {T : Type} (getv : Cell T → Option T) (r : Reactor T) :
    ∀ (deps : List CellID) (args : List T), evalDeps getv r deps = some args →
      List.Forall₂ (fun d a => ∃ c, r.cells d.get_id = some c ∧ getv c = some a)
        deps args := by
  intro deps
  induction deps with
  | nil =>
    intro args h
    simp only [evalDeps, Option.some.injEq] at h
    subst h
    exact List.Forall₂.nil
  | cons d0 ds ih =>
    intro args h
    rcases hc : r.cells d0.get_id with _ | c
    · simp [evalDeps, hc] at h
    · simp only [evalDeps, hc] at h
      rcases hg : getv c with _ | v
      · simp [hg] at h
      · simp only [hg] at h
        rcases hds : evalDeps getv r ds with _ | vs
        · simp [hds] at h
        · simp only [hds, Option.some.injEq] at h
          subst h
          exact List.Forall₂.cons ⟨c, hc, hg⟩ (ih vs hds)

/-- In a well-formed reactor, reading a compute cell through `value`
returns its function applied to the recursively evaluated dependency
values, in declared order. -/
theorem value_compute_eval {T : Type} (r : Reactor T) (hwf : WF r)
    (fuel k : Nat) (func : List T → T) (deps : List CellID)
    (hc : r.cells k = some (Cell.Compute func deps)) (hf : r.id ≤ fuel) :
    ∃ args : List T, List.Forall₂ (fun d a => value fuel r d = some a) deps args ∧
      value fuel r (CellID.Compute ⟨k⟩) = some (func args) := by
  have hk : k < r.id := (hwf.dom k).mpr (by rw [hc]; rfl)
  rcases fuel with _ | f
  · omega
  have hkf : k ≤ f := by omega
  have hdeps : ∀ d ∈ deps, ∃ c', r.cells d.get_id = some c' ∧
      (get_val f r c').isSome := by
    intro d hd
    have hlt : d.get_id < k := hwf.deps_lt k func deps hc d hd
    have hsome : (r.cells d.get_id).isSome := (hwf.dom _).mp (by omega)
    obtain ⟨c', hc'⟩ := Option.isSome_iff_exists.mp hsome
    exact ⟨c', hc', get_val_total r hwf f d.get_id c' hc' (by omega)⟩
  have hs := evalDeps_isSome (get_val f r) r deps hdeps
  obtain ⟨args, hargs⟩ := Option.isSome_iff_exists.mp hs
  refine ⟨args, ?_, ?_⟩
  · have hfa := evalDeps_forall₂ (get_val f r) r deps args hargs
    apply forall₂_imp_mem hfa
    intro d hd a hda
    obtain ⟨c', hc', hg⟩ := hda
    have hlt : d.get_id < k := hwf.deps_lt k func deps hc d hd
    rw [value_eq_lookup, hc']
    have hstab := get_val_stable r hwf d.get_id c' hc' (f + 1) f
      (by omega) (by omega)
    simpa [hstab] using hg
  · simp [value, hc, get_val, hargs]

/-- The missing-dependency path of the validation loop: if some
dependency's handle is absent, the loop stops at the first such
dependency and reports it. -/
theorem checkDeps_missing {T : Type} (r : Reactor T) (hwf : WF r)
    (fuel : Nat) (hf : r.id ≤ fuel) :
    ∀ deps : List CellID, (∃ d ∈ deps, r.cells d.get_id = none) →
      ∃ d, d ∈ deps ∧ r.cells d.get_id = none ∧
        checkDeps fuel r deps = some (some d) := by
  intro deps
  induction deps with
  | nil => rintro ⟨d, hd, _⟩; cases hd
  | cons d0 ds ih =>
    rintro ⟨d, hd, hmiss⟩
    rcases hc : r.cells d0.get_id with _ | c
    · exact ⟨d0, by simp, hc, by simp [checkDeps, hc]⟩
    · have hk : d0.get_id < r.id := (hwf.dom _).mpr (by rw [hc]; rfl)
      have hg := get_val_total r hwf fuel d0.get_id c hc (by omega)
      obtain ⟨v, hv⟩ := Option.isSome_iff_exists.mp hg
      have hd2 : d ∈ ds := by
        rcases List.mem_cons.mp hd with rfl | h2
        · rw [hc] at hmiss; cases hmiss
        · exact h2
      obtain ⟨d', hd', hm', hck⟩ := ih ⟨d, hd2, hmiss⟩
      exact ⟨d', by simp [hd'], hm', by simp [checkDeps, hc, hv, hck]⟩

/-- Scenario: `rA` is reachable. -/
theorem reachable_rA : Reachable rA :=
  Reachable.createInput (Reactor.new Int) 1 Reachable.new

/-- Scenario: creating B on top of `rA` succeeds and yields exactly
`rAB`. -/
theorem create_compute_rAB :
    create_compute 2 rA depsB fB = some (Except.ok ⟨1⟩, rAB) := rfl

/-- Scenario: `rAB` is reachable. -/
theorem reachable_rAB : Reachable rAB :=
  Reachable.createCompute rA depsB fB 2 (Except.ok ⟨1⟩, rAB)
    reachable_rA create_compute_rAB

/-- C2: in every reachable reactor state, for an existing input cell
`value(Input(id))` returns `Some` of the stored value, and for an
existing compute cell `value(Compute(id))` returns `Some` of the cell's
function applied to the argument sequence obtained by recursively
evaluating each declared dependency, in order, against the current
stored state. -/
theorem value_evaluates_cell {T : Type} (r : Reactor T) (fuel k : Nat)
    (c : Cell T) (hr : Reachable r) (hf : r.id ≤ fuel)
    (hc : r.cells k = some c) :
    (∀ v, c = Cell.Input v → value fuel r (CellID.Input ⟨k⟩) = some v) ∧
    (∀ func deps, c = Cell.Compute func deps →
      ∃ args : List T,
        List.Forall₂ (fun d a => value fuel r d = some a) deps args ∧
        value fuel r (CellID.Compute ⟨k⟩) = some (func args)) := by
  have hwf := Reachable.wf r hr
  have hk : k < r.id := (hwf.dom k).mpr (by rw [hc]; rfl)
  constructor
  · intro v hv
    subst hv
    exact value_input_eq fuel r k v hc (by omega)
  · intro func deps hv
    subst hv
    exact value_compute_eval r hwf fuel k func deps hc hf

/-- Witness for C2 at the concrete scenario: in `rAB`, cell 1 is the
compute cell B = A + 1 and its value reads back as `some 2`. -/
theorem value_evaluates_cell_witness :
    Reachable rAB ∧ rAB.id ≤ 5 ∧
    rAB.cells 1 = some (Cell.Compute fB depsB) ∧
    ((∀ v, Cell.Compute fB depsB = Cell.Input v →
        value 5 rAB (CellID.Input ⟨1⟩) = some v) ∧
     (∀ func deps, Cell.Compute fB depsB = Cell.Compute func deps →
        ∃ args : List Int,
          List.Forall₂ (fun d a => value 5 rAB d = some a) deps args ∧
          value 5 rAB (CellID.Compute ⟨1⟩) = some (func args))) ∧
    value 5 rAB (CellID.Compute ⟨1⟩) = some 2 :=
  ⟨reachable_rAB, by decide, rfl,
   value_evaluates_cell rAB 5 1 (Cell.Compute fB depsB) reachable_rAB
     (by decide) rfl,
   rfl⟩

/-- C3: `set_value` on a handle that names no cell, or that names a
compute cell (an `InputCellID` forged from a compute cell's raw handle),
returns `false` and leaves the whole reactor untouched. -/
theorem set_value_rejects_non_input {T : Type} (r : Reactor T) (k : Nat)
    (v : T)
    (h : r.cells k = none ∨
      ∃ func deps, r.cells k = some (Cell.Compute func deps)) :
    set_value r ⟨k⟩ v = (false, r) := by
  rcases h with h | ⟨func, deps, h⟩ <;> simp [set_value, h]

/-- Witness for C3 at the concrete scenario: writing through handle 1
(which names compute cell B) and through handle 5 (never created) both
fail and return `rAB` unchanged. -/
theorem set_value_rejects_non_input_witness :
    (rAB.cells 1 = none ∨
      ∃ func deps, rAB.cells 1 = some (Cell.Compute func deps)) ∧
    set_value rAB ⟨1⟩ 7 = (false, rAB) ∧
    set_value rAB ⟨5⟩ 7 = (false, rAB) :=
  ⟨Or.inr ⟨fB, depsB, rfl⟩,
   set_value_rejects_non_input rAB 1 7 (Or.inr ⟨fB, depsB, rfl⟩),
   set_value_rejects_non_input rAB 5 7 (Or.inl rfl)⟩

/-- C4: `set_value` on an existing input cell returns `true`, stores the
new value (all other cells untouched), after which reading that input
yields the new value and every compute cell, read through `value`,
equals its function applied to its dependencies' current values — i.e.
it reflects the new input value. -/
theorem set_value_updates_input {T : Type} (r : Reactor T) (k : Nat)
    (v₀ v : T) (hr : Reachable r) (hc : r.cells k = some (Cell.Input v₀)) :
    (set_value r ⟨k⟩ v).1 = true ∧
    ((set_value r ⟨k⟩ v).2).id = r.id ∧
    ((set_value r ⟨k⟩ v).2).cells k = some (Cell.Input v) ∧
    (∀ j, j ≠ k → ((set_value r ⟨k⟩ v).2).cells j = r.cells j) ∧
    (∀ fuel, r.id ≤ fuel →
      value fuel (set_value r ⟨k⟩ v).2 (CellID.Input ⟨k⟩) = some v ∧
      (∀ j func deps,
        ((set_value r ⟨k⟩ v).2).cells j = some (Cell.Compute func deps) →
        ∃ args : List T,
          List.Forall₂
            (fun d a => value fuel (set_value r ⟨k⟩ v).2 d = some a)
            deps args ∧
          value fuel (set_value r ⟨k⟩ v).2 (CellID.Compute ⟨j⟩) =
            some (func args))) := by
  have hwf := Reachable.wf r hr
  have hr' : Reachable (set_value r ⟨k⟩ v).2 := Reachable.setValue r ⟨k⟩ v hr
  have hwf' := Reachable.wf _ hr'
  have hk : k < r.id := (hwf.dom k).mpr (by rw [hc]; rfl)
  have hval : set_value r ⟨k⟩ v =
      (true, { r with cells := insertCell r.cells k (Cell.Input v) }) := by
    simp [set_value, hc]
  have hwf2 : WF ({ r with
      cells := insertCell r.cells k (Cell.Input v) } : Reactor T) := by
    rw [hval] at hwf'
    exact hwf'
  rw [hval]
  refine ⟨rfl, rfl, insertCell_same _ _ _,
    fun j hj => insertCell_other _ _ _ _ hj, ?_⟩
  intro fuel hfuel
  constructor
  · exact value_input_eq fuel _ k v (insertCell_same _ _ _) (by omega)
  · intro j func deps hcomp
    exact value_compute_eval _ hwf2 fuel j func deps hcomp hfuel

/-- Witness for C4 at the concrete scenario (spec P2): after
`set_value(A, 2)` in `rAB`, the call returned `true`, `value(A)` is
`some 2` and `value(B)` is `some 3`. -/
theorem set_value_updates_input_witness :
    Reachable rAB ∧ rAB.cells 0 = some (Cell.Input 1) ∧ rAB.id ≤ 5 ∧
    (set_value rAB ⟨0⟩ 2).1 = true ∧
    value 5 (set_value rAB ⟨0⟩ 2).2 (CellID.Input ⟨0⟩) = some 2 ∧
    value 5 (set_value rAB ⟨0⟩ 2).2 (CellID.Compute ⟨1⟩) = some 3 :=
  ⟨reachable_rAB, rfl, by decide,
   (set_value_updates_input rAB 0 1 2 reachable_rAB rfl).1,
   ((set_value_updates_input rAB 0 1 2 reachable_rAB rfl).2.2.2.2 5
     (by decide)).1,
   rfl⟩

/-- C5: `create_compute` with a dependency list containing a handle that
names no cell returns `Err` carrying one of the missing dependency ids
(in fact the first one) and hands back the reactor completely unchanged,
id counter included. -/
theorem create_compute_missing_dep {T : Type} (r : Reactor T) (fuel : Nat)
    (deps : List CellID) (func : List T → T) (hr : Reachable r)
    (hf : r.id ≤ fuel) (h : ∃ d ∈ deps, r.cells d.get_id = none) :
    ∃ d, d ∈ deps ∧ r.cells d.get_id = none ∧
      create_compute fuel r deps func = some (Except.error d, r) := by
  have hwf := Reachable.wf r hr
  obtain ⟨d, hd, hm, hck⟩ := checkDeps_missing r hwf fuel hf deps h
  exact ⟨d, hd, hm, by simp [create_compute, hck]⟩

/-- Witness for C5 at the concrete scenario (spec P6): a compute cell
over the never-created handle 5 is rejected with that id and `rAB` is
returned unchanged. -/
theorem create_compute_missing_dep_witness :
    Reachable rAB ∧ rAB.id ≤ 5 ∧
    (∃ d ∈ ([CellID.Input ⟨5⟩] : List CellID), rAB.cells d.get_id = none) ∧
    (∃ d, d ∈ ([CellID.Input ⟨5⟩] : List CellID) ∧
      rAB.cells d.get_id = none ∧
      create_compute 5 rAB [CellID.Input ⟨5⟩] fB =
        some (Except.error d, rAB)) :=
  ⟨reachable_rAB, by decide, ⟨CellID.Input ⟨5⟩, by simp, rfl⟩,
   create_compute_missing_dep rAB 5 [CellID.Input ⟨5⟩] fB reachable_rAB
     (by decide) ⟨CellID.Input ⟨5⟩, by simp, rfl⟩⟩

/-- C6 (the code at the failing input): creating compute cell
B = A + 1 over input A = 1 stores `Cell.Compute fB depsB` — a cell
holding exactly the function and the dependency list, the only fields
the source's `ComputeCell` struct has.  No initial value is stored: the
dependency values the source computes into `cellcontents` are discarded,
and there is no cached-value field that later change detection could
read. -/
theorem create_compute_stores_no_cached_value :
    create_compute 2 rA depsB fB = some (Except.ok ⟨1⟩, rAB) ∧
    rAB.cells 1 = some (Cell.Compute fB depsB) :=
  ⟨rfl, rfl⟩

/-- C1 (the code at the failing input): `add_callback` — the only way a
callback could ever be registered, and whose own doc comment promises
the exactly-once firing semantics — has the `unimplemented` macro as its
body and aborts on every call, here on compute cell B of the concrete
scenario.  No callback can ever be registered, so no `set_value` call
ever fires one. -/
theorem add_callback_aborts_unimplemented :
    add_callback rAB ⟨1⟩ (fun _ => ()) = none := rfl

/-- C7 (the code at the failing input): `remove_callback` likewise has
the `unimplemented` macro as its body and aborts on every call instead
of returning `NonexistentCell` / `NonexistentCallback` / success as its
own doc comment describes. -/
theorem remove_callback_aborts_unimplemented :
    remove_callback rAB ⟨1⟩ CallbackID.mk = none := rfl

/-- C9 (the code at the failing input): the source's `CallbackID` is a
unit struct with no fields, so any two callback identifiers are equal —
distinct live registrations could never carry unequal ids, and
individual removal by id is impossible.  (The registry itself does not
exist either: `Reactor` has no callback storage and `add_callback`
aborts.) -/
theorem callback_ids_cannot_be_distinct (a b : CallbackID) : a = b := by
  cases a
  cases b
  rfl

/-- C8: reads are pure.  `value` takes the reactor immutably and returns
no state, so a read mutates nothing; this theorem shows the read result
is moreover deterministic — independent of the evaluation budget — so
two consecutive `value` calls with no intervening mutation return
identical results. -/
theorem value_reads_pure {T : Type} (r : Reactor T) (id : CellID)
    (fuel₁ fuel₂ : Nat) (hr : Reachable r) (h₁ : r.id ≤ fuel₁)
    (h₂ : r.id ≤ fuel₂) : value fuel₁ r id = value fuel₂ r id := by
  have hwf := Reachable.wf r hr
  rw [value_eq_lookup, value_eq_lookup]
  rcases hc : r.cells id.get_id with _ | c
  · rfl
  · show get_val fuel₁ r c = get_val fuel₂ r c
    have hk : id.get_id < r.id := (hwf.dom _).mpr (by rw [hc]; rfl)
    exact get_val_stable r hwf id.get_id c hc fuel₁ fuel₂ (by omega) (by omega)

/-- Witness for C8 at the concrete scenario: two reads of compute cell B
in `rAB` (with budgets 3 and 7) agree, and both read `some 2`. -/
theorem value_reads_pure_witness :
    Reachable rAB ∧ rAB.id ≤ 3 ∧ rAB.id ≤ 7 ∧
    value 3 rAB (CellID.Compute ⟨1⟩) = value 7 rAB (CellID.Compute ⟨1⟩) ∧
    value 3 rAB (CellID.Compute ⟨1⟩) = some 2 :=
  ⟨reachable_rAB, by decide, by decide,
   value_reads_pure rAB (CellID.Compute ⟨1⟩) 3 7 reachable_rAB
     (by decide) (by decide),
   rfl⟩

/-- C10: in every reachable reactor state every dependency recorded in a
compute cell names a present cell, and evaluating any stored cell with
fuel above its key succeeds — the aborting `unwrap` branch of the
dependency lookup inside `get_val` is unreachable. -/
theorem compute_deps_always_present {T : Type} (r : Reactor T)
    (hr : Reachable r) :
    (∀ k func deps, r.cells k = some (Cell.Compute func deps) →
      ∀ d ∈ deps, (r.cells d.get_id).isSome) ∧
    (∀ fuel k c, r.cells k = some c → k < fuel →
      (get_val fuel r c).isSome) := by
  have hwf := Reachable.wf r hr
  constructor
  · intro k func deps hc d hd
    have hlt := hwf.deps_lt k func deps hc d hd
    have hk : k < r.id := (hwf.dom k).mpr (by rw [hc]; rfl)
    exact (hwf.dom _).mp (by omega)
  · exact get_val_total r hwf

/-- Witness for C10 at the concrete scenario `rAB`. -/
theorem compute_deps_always_present_witness :
    Reachable rAB ∧
    ((∀ k func deps, rAB.cells k = some (Cell.Compute func deps) →
       ∀ d ∈ deps, (rAB.cells d.get_id).isSome) ∧
     (∀ fuel k c, rAB.cells k = some c → k < fuel →
       (get_val fuel rAB c).isSome)) :=
  ⟨reachable_rAB, compute_deps_always_present rAB reachable_rAB⟩

end React
